import Mathlib

/-!
Verification of the flask-peewee admin module (`flask_peewee/admin.py`)
against its natural-language specification.

The development shallowly embeds the parts of the source the claims talk
about:

* `Export.json_response`'s `generate()` generator (streaming JSON export)
  is modelled as the list of string chunks it yields, `exportChunks`.
* `Export.prepare_query` / `ensure_join` are modelled over an explicit
  query record (`Query`) that records the root model, the ORM's
  `_joined_models` tracking as a list (in join order), the current join
  context (`switch`), and the per-model column selection (`.query`).
  Field-path strings such as `"user__email"` are represented as their
  lists of `__`-separated segments, so `rsplit('__', 1)` becomes
  `(List.dropLast, List.getLast)` and `'__' in p` becomes `2 ≤ p.length`.
* `ModelAdmin.collect_related_fields` is modelled with an explicit fuel
  argument standing for the Python recursion-depth limit: a recursive
  call with exhausted fuel returns `none` (Python raises RecursionError).
* `ModelAdmin.collect_objects`, `Admin.auth_required` and
  `ModelAdmin.ajax_list` are modelled directly, with the external
  collaborators (peewee query execution, flask auth/session, pagination)
  passed in as data or functions.

Entity types (peewee model classes) are an abstract type `M` with
decidable equality; concrete instantiations use `String` names.
-/

/-! ## Streaming JSON export: the `generate()` generator of
`Export.json_response` (admin.py lines 597-613).

The Python generator is

```
def generate():
    i = prepared_query.count()
    yield '[\n'
    for obj in prepared_query:
        i -= 1
        yield json.dumps(serializer.serialize_object(obj, prepared_query.query))
        if i > 0:
            yield ',\n'
    yield '\n]'
```

We model the row iteration as a list `objs` of rows (`count()` and the
iteration see the same snapshot, so `i` starts at `objs.length`), and
`json.dumps(serializer.serialize_object(...))` as an opaque function
`serialize : α → String` supplied by the serializer collaborator.
`generateRows` is the loop body; `exportChunks` is the whole generator's
chunk sequence.
-/

/-- The `for obj in prepared_query` loop of `generate()`: `i` is the
countdown initialised to `count()`; each row yields its serialization and
then `',\n'` when `i > 0` still holds after the decrement. -/
def generateRows {α : Type} (serialize : α → String) : Nat → List α → List String
  | _, [] => []
  | i, o :: os =>
    serialize o :: ((if 0 < i - 1 then [",\n"] else []) ++ generateRows serialize (i - 1) os)

/-- All chunks yielded by `generate()`: `'[\n'`, the row loop, `'\n]'`. -/
def exportChunks {α : Type} (serialize : α → String) (objs : List α) : List String :=
  "[\n" :: generateRows serialize objs.length objs ++ ["\n]"]

/-- Concatenation of the yielded chunks — what the streamed HTTP body
adds up to. -/
def concatChunks : List String → String
  | [] => ""
  | s :: rest => s ++ concatChunks rest

theorem concatChunks_append (l₁ l₂ : List String) :
    concatChunks (l₁ ++ l₂) = concatChunks l₁ ++ concatChunks l₂ := by
  induction l₁ with
  | nil => simp [concatChunks]
  | cons s rest ih => simp [concatChunks, ih, String.append_assoc]

/-- The row loop, run with the counter initialised to the row count,
yields exactly the serialized rows interspersed with `',\n'`. -/
theorem generateRows_eq_intersperse {α : Type} (serialize : α → String) :
    ∀ objs : List α,
      generateRows serialize objs.length objs = (objs.map serialize).intersperse ",\n"
  | [] => rfl
  | [o] => by simp [generateRows, List.intersperse]
  | o :: o' :: os' => by
    have ih := generateRows_eq_intersperse serialize (o' :: os')
    simp only [List.length_cons] at ih
    show generateRows serialize (os'.length + 1 + 1) (o :: o' :: os') = _
    rw [generateRows]
    simp only [Nat.add_sub_cancel]
    rw [if_pos (Nat.succ_pos _), ih]
    simp [List.intersperse]

/-! ## A JSON surface grammar.

The claim about `json_response` states that the concatenated output
parses as a valid JSON array of N objects.  We formalise "parses as
valid JSON" as membership in an (unambiguous) JSON surface grammar,
given as inductive representation relations between JSON values and the
character sequences that denote them, following RFC 8259: a value may be
`null`, `true`, `false`, a number, a string, an array or an object, and
array/object elements are separated by commas with optional whitespace
around each element.  Scalar lexemes are carried verbatim in the value
(their numeric/text interpretation is irrelevant here). -/

def isJsonWS (c : Char) : Bool :=
  c == ' ' || c == '\n' || c == '\t' || c == '\r'

/-- A run of JSON insignificant whitespace. -/
def JsonWS (w : List Char) : Prop := ∀ c ∈ w, isJsonWS c = true

def lbraceC : Char := Char.ofNat 123

def rbraceC : Char := Char.ofNat 125

def jsonEscape (c : Char) : Bool :=
  c == '"' || c == '\\' || c == '/' || c == 'b' || c == 'f' || c == 'n' || c == 'r' || c == 't'

/-- Valid inside of a JSON string literal (unescaped characters other
than quote/backslash, or simple escape pairs). -/
def strBodyOk : List Char → Bool
  | [] => true
  | '\\' :: c :: rest => jsonEscape c && strBodyOk rest
  | c :: rest => !(c == '"') && !(c == '\\') && strBodyOk rest

def dropDigits : List Char → List Char
  | [] => []
  | c :: rest => if c.isDigit then dropDigits rest else c :: rest

def digits1 : List Char → Option (List Char)
  | [] => none
  | c :: rest => if c.isDigit then some (dropDigits rest) else none

def fracPart : List Char → Option (List Char)
  | '.' :: rest => digits1 rest
  | cs => some cs

def expPart : List Char → Option (List Char)
  | [] => some []
  | c :: rest =>
    if c == 'e' || c == 'E' then
      match rest with
      | s :: rest2 => if s == '+' || s == '-' then digits1 rest2 else digits1 rest
      | [] => none
    else some (c :: rest)

def intPart : List Char → Option (List Char)
  | '0' :: rest => some rest
  | cs => digits1 cs

/-- A valid JSON number lexeme. -/
def numLit (cs : List Char) : Bool :=
  let cs1 := match cs with
    | '-' :: rest => rest
    | _ => cs
  match intPart cs1 with
  | none => false
  | some r1 =>
    match fracPart r1 with
    | none => false
    | some r2 =>
      match expPart r2 with
      | none => false
      | some r3 => r3.isEmpty

inductive Json where
  | null
  | bool (b : Bool)
  | num (lexeme : List Char)
  | str (body : List Char)
  | arr (elems : List Json)
  | obj (members : List (List Char × Json))

def isObjJson : Json → Bool
  | .obj _ => true
  | _ => false

mutual

inductive RepVal : Json → List Char → Prop where
  | nullRep : RepVal .null ['n', 'u', 'l', 'l']
  | trueRep : RepVal (.bool true) ['t', 'r', 'u', 'e']
  | falseRep : RepVal (.bool false) ['f', 'a', 'l', 's', 'e']
  | numRep (cs : List Char) : numLit cs = true → RepVal (.num cs) cs
  | strRep (body : List Char) : strBodyOk body = true →
      RepVal (.str body) ('"' :: body ++ ['"'])
  | arrNil (w : List Char) : JsonWS w → RepVal (.arr []) ('[' :: w ++ [']'])
  | arrCons (v : Json) (vs : List Json) (cs : List Char) :
      RepElems (v :: vs) cs → RepVal (.arr (v :: vs)) ('[' :: cs ++ [']'])
  | objNil (w : List Char) : JsonWS w → RepVal (.obj []) (lbraceC :: w ++ [rbraceC])
  | objCons (kv : List Char × Json) (ms : List (List Char × Json)) (cs : List Char) :
      RepMembers (kv :: ms) cs → RepVal (.obj (kv :: ms)) (lbraceC :: cs ++ [rbraceC])

inductive RepElems : List Json → List Char → Prop where
  | last (w1 c w2 : List Char) (v : Json) :
      JsonWS w1 → RepVal v c → JsonWS w2 → RepElems [v] (w1 ++ c ++ w2)
  | more (w1 c w2 cs : List Char) (v v' : Json) (vs : List Json) :
      JsonWS w1 → RepVal v c → JsonWS w2 → RepElems (v' :: vs) cs →
      RepElems (v :: v' :: vs) (w1 ++ c ++ w2 ++ ',' :: cs)

inductive RepMembers : List (List Char × Json) → List Char → Prop where
  | last (w1 k w2 w3 c w4 : List Char) (v : Json) :
      JsonWS w1 → strBodyOk k = true → JsonWS w2 → JsonWS w3 → RepVal v c → JsonWS w4 →
      RepMembers [(k, v)] (w1 ++ '"' :: k ++ '"' :: w2 ++ ':' :: w3 ++ c ++ w4)
  | more (w1 k w2 w3 c w4 cs : List Char) (v : Json) (m : List Char × Json)
      (ms : List (List Char × Json)) :
      JsonWS w1 → strBodyOk k = true → JsonWS w2 → JsonWS w3 → RepVal v c → JsonWS w4 →
      RepMembers (m :: ms) cs →
      RepMembers ((k, v) :: m :: ms)
        (w1 ++ '"' :: k ++ '"' :: w2 ++ ':' :: w3 ++ c ++ w4 ++ ',' :: cs)

end

/-- `s` parses as a valid JSON array of `n` objects. -/
def ParsesAsJsonArrayOfObjects (s : String) (n : Nat) : Prop :=
  ∃ vs : List Json, RepVal (.arr vs) s.data ∧ vs.length = n ∧ ∀ v ∈ vs, isObjJson v = true

/-- The character sequence the export framing produces between `[` and
`]`, for the serialized rows `r :: rs`: a newline, the first row, and
then each further row preceded by `,` and a newline, with a final
newline after the last row. -/
def elemChars : List Char → List (List Char) → List Char
  | r, [] => '\n' :: r ++ ['\n']
  | r, r' :: rest => '\n' :: r ++ ',' :: elemChars r' rest

theorem repElems_elemChars :
    ∀ (r : List Char) (rs : List (List Char)) (v : Json) (vs : List Json),
      RepVal v r → List.Forall₂ RepVal vs rs → RepElems (v :: vs) (elemChars r rs)
  | r, [], v, vs, hv, hall => by
    cases hall
    have h := RepElems.last ['\n'] r ['\n'] v (by intro c hc; simp at hc; simp [hc, isJsonWS])
      hv (by intro c hc; simp at hc; simp [hc, isJsonWS])
    simpa [elemChars] using h
  | r, r' :: rest, v, vs, hv, hall => by
    cases hall with
    | cons hv' hall' =>
      rename_i v' vs'
      have htail := repElems_elemChars r' rest v' vs' hv' hall'
      have h := RepElems.more ['\n'] r [] (elemChars r' rest) v v' vs'
        (by intro c hc; simp at hc; simp [hc, isJsonWS]) hv
        (by intro c hc; simp at hc) htail
      simpa [elemChars] using h

theorem concatChunks_data (l : List String) :
    (concatChunks l).data = (l.map String.data).flatten := by
  induction l with
  | nil => rfl
  | cons s rest ih => simp [concatChunks, String.data_append, ih]

theorem elemChars_eq_join (s : String) :
    ∀ ss : List String,
      elemChars s.data (ss.map String.data) =
        '\n' :: ((List.intersperse ",\n" (s :: ss)).map String.data).flatten ++ ['\n'] := by
  intro ss
  induction ss generalizing s with
  | nil => simp [elemChars, List.intersperse]
  | cons s' ss' ih =>
    have hd : (",\n" : String).data = [',', '\n'] := rfl
    simp only [List.map_cons, elemChars, ih s', List.intersperse, List.map, List.flatten, hd]
    simp [List.append_assoc]

theorem repObj_head {ms : List (List Char × Json)} {cs : List Char} (h : RepVal (.obj ms) cs) :
    ∃ rest, cs = lbraceC :: rest := by
  cases h with
  | objNil w hw => exact ⟨_, rfl⟩
  | objCons kv ms cs h => exact ⟨_, rfl⟩

theorem intersperse_count_sep :
    ∀ strs : List String, (∀ s ∈ strs, s ≠ ",\n") →
      (strs.intersperse ",\n").count ",\n" = strs.length - 1
  | [], _ => rfl
  | [s], h => by
    have hs : s ≠ ",\n" := h s (by simp)
    simp [List.intersperse, List.count_cons, hs]
  | s :: s' :: ss, h => by
    have hs : s ≠ ",\n" := h s (by simp)
    have ih := intersperse_count_sep (s' :: ss) (fun x hx => h x (by simp [hx]))
    simp only [List.length_cons, Nat.add_sub_cancel] at ih
    simp [List.intersperse, List.count_cons, hs, ih]

theorem exists_objVals :
    ∀ rows : List String, (∀ s ∈ rows, ∃ ms, RepVal (.obj ms) s.data) →
      ∃ vs : List Json, List.Forall₂ RepVal vs (rows.map String.data) ∧
        vs.length = rows.length ∧ ∀ v ∈ vs, isObjJson v = true
  | [], _ => ⟨[], List.Forall₂.nil, rfl, by simp⟩
  | s :: rows, h => by
    obtain ⟨ms, hms⟩ := h s (by simp)
    obtain ⟨vs, hall, hlen, hobj⟩ :=
      exists_objVals rows (fun x hx => h x (by simp [hx]))
    exact ⟨.obj ms :: vs, List.Forall₂.cons hms hall, by simp [hlen], by
      intro v hv
      rcases List.mem_cons.1 hv with rfl | hv
      · rfl
      · exact hobj v hv⟩

/-- **C1**: for a prepared export query with `N ≥ 1` result rows (each of
which the serializer collaborator renders as a JSON object), the
generator of `Export.json_response` yields `'[\n'`, then the `N`
serialized rows separated by exactly `N - 1` occurrences of `',\n'` (no
separator after the last row), then `'\n]'`; and the concatenated output
parses as a valid JSON array of `N` objects. -/
theorem export_json_response_stream_framing {α : Type} (serialize : α → String)
    (objs : List α) (hne : 1 ≤ objs.length)
    (hrows : ∀ o ∈ objs, ∃ ms, RepVal (.obj ms) (serialize o).data) :
    exportChunks serialize objs =
      "[\n" :: (objs.map serialize).intersperse ",\n" ++ ["\n]"] ∧
    concatChunks (exportChunks serialize objs) =
      "[\n" ++ concatChunks ((objs.map serialize).intersperse ",\n") ++ "\n]" ∧
    (exportChunks serialize objs).count ",\n" = objs.length - 1 ∧
    ParsesAsJsonArrayOfObjects (concatChunks (exportChunks serialize objs)) objs.length := by
  have hchunks : exportChunks serialize objs =
      "[\n" :: (objs.map serialize).intersperse ",\n" ++ ["\n]"] := by
    simp [exportChunks, generateRows_eq_intersperse]
  have hrowsne : ∀ s ∈ objs.map serialize, s ≠ ",\n" := by
    intro s hs
    obtain ⟨o, ho, rfl⟩ := List.mem_map.1 hs
    obtain ⟨ms, hms⟩ := hrows o ho
    obtain ⟨rest, hrest⟩ := repObj_head hms
    intro hcon
    rw [hcon] at hrest
    have : (',' : Char) = lbraceC := by
      have := congrArg (fun l => l.headD ' ') hrest
      simpa using this
    exact absurd this (by decide)
  have hconcat : concatChunks (exportChunks serialize objs) =
      "[\n" ++ concatChunks ((objs.map serialize).intersperse ",\n") ++ "\n]" := by
    rw [hchunks]
    show "[\n" ++ concatChunks ((objs.map serialize).intersperse ",\n" ++ ["\n]"]) = _
    rw [concatChunks_append]
    show _ ++ (_ ++ ("\n]" ++ "")) = _
    rw [String.append_empty, String.append_assoc]
  refine ⟨hchunks, hconcat, ?_, ?_⟩
  · rw [hchunks]
    have h1 : ("[\n" : String) ≠ ",\n" := by decide
    have h2 : ("\n]" : String) ≠ ",\n" := by decide
    simp [List.count_cons, List.count_append, h1, h2,
      intersperse_count_sep (objs.map serialize) hrowsne]
  · cases objs with
    | nil => simp at hne
    | cons o os =>
      obtain ⟨vs, hall, hlen, hobj⟩ :=
        exists_objVals ((o :: os).map serialize) (by
          intro s hs
          obtain ⟨o', ho', rfl⟩ := List.mem_map.1 hs
          exact hrows o' ho')
      simp only [List.map_cons] at hall
      cases hall with
      | cons hv hall' =>
        rename_i v vs'
        have helems := repElems_elemChars (serialize o).data
          ((os.map serialize).map String.data) v vs' hv hall'
        have harr := RepVal.arrCons v vs' _ helems
        refine ⟨v :: vs', ?_, by simpa using hlen, by simpa using hobj⟩
        have hdata : (concatChunks (exportChunks serialize (o :: os))).data =
            '[' :: elemChars (serialize o).data ((os.map serialize).map String.data) ++ [']'] := by
          rw [hconcat]
          rw [elemChars_eq_join (serialize o) (os.map serialize)]
          simp only [String.data_append, concatChunks_data]
          show ['[', '\n'] ++ _ ++ ['\n', ']'] = _
          simp [List.append_assoc, List.intersperse]
        rw [hdata]
        exact harr

/-- Witness for C1: two rows, each serialized as the empty JSON object
`\x7b\x7d`; the generator output concatenates to `[\n\x7b\x7d,\n\x7b\x7d\n]`
and parses as a JSON array of 2 objects. -/
theorem export_json_response_stream_framing_witness :
    1 ≤ ([(), ()] : List Unit).length ∧
    concatChunks (exportChunks (fun _ : Unit => "\x7b\x7d") [(), ()]) =
      "[\n\x7b\x7d,\n\x7b\x7d\n]" ∧
    ParsesAsJsonArrayOfObjects
      (concatChunks (exportChunks (fun _ : Unit => "\x7b\x7d") [(), ()])) 2 := by
  have hrows : ∀ o ∈ ([(), ()] : List Unit),
      ∃ ms, RepVal (.obj ms) ((fun _ : Unit => "\x7b\x7d") o).data := by
    intro o _
    refine ⟨[], ?_⟩
    have h := RepVal.objNil [] (by intro c hc; simp at hc)
    have hx : ("\x7b\x7d" : String).data = lbraceC :: [] ++ [rbraceC] := by decide
    exact hx ▸ h
  have h := export_json_response_stream_framing (fun _ : Unit => "\x7b\x7d") [(), ()]
    (by decide) hrows
  exact ⟨by decide, by decide, h.2.2.2⟩

/-- Counterexample for C2 as stated: on an empty result set the
concatenated generator output is `"[\n\n]"`, which has four characters,
not five as the claim asserts. -/
theorem export_json_response_empty_counterexample :
    concatChunks (exportChunks (fun _ : Unit => "") []) = "[\n\n]" ∧
    ¬ (concatChunks (exportChunks (fun _ : Unit => "") [])).length = 5 := by
  exact ⟨by decide, by decide⟩

/-- **C2 (amended)**: for an empty export result set the generator
yields exactly the chunks `'[\n'` and `'\n]'`, whose concatenation is
the four characters `'['`, newline, newline, `']'` — no row content and
no comma. -/
theorem export_json_response_empty_amended {α : Type} (serialize : α → String) :
    exportChunks serialize [] = ["[\n", "\n]"] ∧
    concatChunks (exportChunks serialize []) = "[\n\n]" ∧
    (concatChunks (exportChunks serialize [])).length = 4 := by
  refine ⟨rfl, rfl, rfl⟩

/-! ## Export query rewriting: `Export.prepare_query` and its inner
`ensure_join` (admin.py lines 555-595).

A peewee query is modelled as a record of its root model class, the
ORM's `_joined_models` tracking (as a list, in the order joins were
added — "adding a join" appends), the current join context set by
`switch`, and the `.query` column-selection attribute.  `Export` holds
the base query, the keys of the related-field map (from which
`self.alias_to_model = dict((k[1], k[0]) for k in self.related.keys())`
is built), and the raw selected field paths.  Field-path strings are
represented as their `__`-segment lists, so `p.rsplit('__', 1)` is
`(p.dropLast, p.getLast)` and `'__' in p` is `2 ≤ p.length`; a raw
single-column lookup such as `"content"` is the one-element list
`["content"]`.  Dictionary lookups that would raise `KeyError`
(`self.alias_to_model[path]`) make the model return `none`. -/

structure Query (M : Type) where
  model : M
  joinedModels : List M
  ctx : M
  select : List (M × List String)
deriving DecidableEq

/-- `query.join(m)`: add a join to model `m`, making it the context. -/
def Query.join {M : Type} (q : Query M) (m : M) : Query M :=
  { q with joinedModels := q.joinedModels ++ [m], ctx := m }

/-- `query.switch(m)`: move the join context to `m`. -/
def Query.switch {M : Type} (q : Query M) (m : M) : Query M :=
  { q with ctx := m }

structure Export (M : Type) where
  query : Query M
  relatedKeys : List (M × List String)
  fields : List (List String)
deriving DecidableEq

/-- `self.alias_to_model`: path string → model, built from the keys of
the related-field map (`dict` construction: a later duplicate key would
win, hence the reverse lookup). -/
def Export.aliasToModel {M : Type} [DecidableEq M] (e : Export M) (p : List String) :
    Option M :=
  (e.relatedKeys.reverse.find? (fun kv => decide (kv.2 = p))).map (fun kv => kv.1)

/-- `ensure_join(query, m, p)`, with the recursion depth bounded by the
fuel (first) argument; the recursion shortens `p` by one segment each
time, so fuel `p.length + 1` never runs out. -/
def ensureJoinF {M : Type} [DecidableEq M] (a2m : List String → Option M) :
    Nat → Query M → M → List String → Option (Query M)
  | 0, _, _, _ => none
  | n + 1, q, m, p =>
    if m ∈ q.joinedModels then some q
    else if p.length < 2 then
      some ((q.switch q.model).join m)
    else
      match a2m p.dropLast with
      | none => none
      | some nm =>
        match ensureJoinF a2m n q nm p.dropLast with
        | none => none
        | some q2 => some ((q2.switch nm).join m)

def ensure_join {M : Type} [DecidableEq M] (a2m : List String → Option M)
    (q : Query M) (m : M) (p : List String) : Option (Query M) :=
  ensureJoinF a2m (p.length + 1) q m p

/-- `select.setdefault(model, []); select[model].append(column)` on the
association-list representation of the select dict. -/
def selAppend {M : Type} [DecidableEq M] :
    List (M × List String) → M → String → List (M × List String)
  | [], m, c => [(m, [c])]
  | (k, cs) :: rest, m, c =>
    if k = m then (k, cs ++ [c]) :: rest else (k, cs) :: selAppend rest m c

/-- One iteration of the `for lookup in self.fields` loop of
`prepare_query`: the accumulator carries the clone being rewritten and
the select dict being built. -/
def prepareStep {M : Type} [DecidableEq M] (e : Export M)
    (acc : Query M × List (M × List String)) (lk : List String) :
    Option (Query M × List (M × List String)) :=
  if 2 ≤ lk.length then
    match e.aliasToModel lk.dropLast with
    | none => none
    | some model =>
      match ensure_join e.aliasToModel acc.1 model lk.dropLast with
      | none => none
      | some clone2 => some (clone2, selAppend acc.2 model (lk.getLastD ""))
  else
    some (acc.1, selAppend acc.2 e.query.model (lk.headD ""))

/-- `Export.prepare_query`: clone the base query, process every selected
lookup, then overwrite the clone's column selection with the built
select dict. -/
def Export.prepare_query {M : Type} [DecidableEq M] (e : Export M) : Option (Query M) :=
  match e.fields.foldlM (prepareStep e) (e.query, []) with
  | none => none
  | some (clone, select) => some { clone with select := select }

/-- The nonempty initial segments of a path, shortest first; these are
exactly the ancestor prefixes `ensure_join` resolves right-to-left. -/
def initSegs (p : List String) : List (List String) :=
  (List.range p.length).map (fun i => p.take (i + 1))

theorem initSegs_ne (p : List String) (hp : p ≠ []) :
    initSegs p = initSegs p.dropLast ++ [p] := by
  obtain ⟨d, hd⟩ : ∃ d, p.length = d + 1 := by
    cases p with
    | nil => exact absurd rfl hp
    | cons a t => exact ⟨t.length, by simp⟩
  unfold initSegs
  rw [List.length_dropLast, hd]
  simp only [Nat.add_sub_cancel]
  rw [List.range_succ, List.map_append]
  congr 1
  · apply List.map_congr_left
    intro i hi
    rw [List.mem_range] at hi
    rw [List.dropLast_eq_take, List.take_take]
    congr 1
    simp only [hd, Nat.add_sub_cancel]
    omega
  · simp only [List.map_cons, List.map_nil]
    rw [← hd, List.take_length]

theorem self_mem_initSegs (p : List String) (hp : p ≠ []) : p ∈ initSegs p := by
  rw [initSegs_ne p hp]
  simp

theorem initSegs_dropLast_subset (p : List String) (hp : p ≠ []) :
    ∀ x ∈ initSegs p.dropLast, x ∈ initSegs p := by
  intro x hx
  rw [initSegs_ne p hp]
  simp [hx]

/-- Sanity of a path chain under `alias_to_model`: every nonempty
initial segment resolves, and the models along the chain are pairwise
distinct.  Whenever the related-field map was produced by a terminating
run of `collect_related_fields`, the relation graph has no reachable
cycle, so the model chain along any of its paths has no repeats and
this holds. -/
def ChainOk {M : Type} (a2m : List String → Option M) (p : List String) : Prop :=
  ((initSegs p).map a2m).Nodup ∧ ∀ q ∈ initSegs p, a2m q ≠ none

theorem ChainOk.dropLast {M : Type} {a2m : List String → Option M} {p : List String}
    (h : ChainOk a2m p) (hp : p ≠ []) : ChainOk a2m p.dropLast := by
  obtain ⟨hnd, hres⟩ := h
  rw [initSegs_ne p hp, List.map_append] at hnd
  exact ⟨(List.nodup_append.1 hnd).1,
    fun q hq => hres q (initSegs_dropLast_subset p hp q hq)⟩

theorem ensureJoinF_joined_subset {M : Type} [DecidableEq M] (a2m : List String → Option M) :
    ∀ (n : Nat) (q : Query M) (m : M) (p : List String) (q' : Query M),
      ensureJoinF a2m n q m p = some q' →
      ∀ x ∈ q'.joinedModels,
        x ∈ q.joinedModels ∨ x = m ∨ ∃ pre ∈ initSegs p, a2m pre = some x := by
  intro n
  induction n with
  | zero => intro q m p q' h; simp [ensureJoinF] at h
  | succ n ih =>
    intro q m p q' h x hx
    rw [ensureJoinF] at h
    by_cases hmem : m ∈ q.joinedModels
    · rw [if_pos hmem] at h
      cases h
      exact Or.inl hx
    · rw [if_neg hmem] at h
      by_cases hlen : p.length < 2
      · rw [if_pos hlen] at h
        cases h
        simp only [Query.join, Query.switch, List.mem_append, List.mem_singleton] at hx
        rcases hx with hx | hx
        · exact Or.inl hx
        · exact Or.inr (Or.inl hx)
      · rw [if_neg hlen] at h
        cases ha : a2m p.dropLast with
        | none => simp only [ha] at h; exact Option.noConfusion h
        | some nm =>
          simp only [ha] at h
          cases hrec : ensureJoinF a2m n q nm p.dropLast with
          | none => simp only [hrec] at h; exact Option.noConfusion h
          | some q2 =>
            simp only [hrec, Option.some.injEq] at h
            subst h
            have hp : p ≠ [] := by
              intro hcon; rw [hcon] at hlen; simp at hlen
            have hdl : p.dropLast ≠ [] := by
              intro hcon
              have := congrArg List.length hcon
              simp [List.length_dropLast] at this
              omega
            simp only [Query.join, Query.switch, List.mem_append,
              List.mem_singleton] at hx
            rcases hx with hx | hx
            · rcases ih q nm p.dropLast q2 hrec x hx with h1 | h1 | ⟨pre, hpre, hpa⟩
              · exact Or.inl h1
              · refine Or.inr (Or.inr ⟨p.dropLast, ?_, ?_⟩)
                · exact initSegs_dropLast_subset p hp _ (self_mem_initSegs _ hdl)
                · rw [h1]; exact ha
              · exact Or.inr (Or.inr ⟨pre, initSegs_dropLast_subset p hp pre hpre, hpa⟩)
            · exact Or.inr (Or.inl hx)

theorem ChainOk.not_dup {M : Type} {a2m : List String → Option M} {p : List String}
    (h : ChainOk a2m p) (hp : p ≠ []) {pre : List String}
    (hpre : pre ∈ initSegs p.dropLast) : a2m pre ≠ a2m p := by
  obtain ⟨hnd, _⟩ := h
  rw [initSegs_ne p hp, List.map_append] at hnd
  obtain ⟨_, _, hdisj⟩ := List.nodup_append.1 hnd
  intro hcon
  exact hdisj (List.mem_map_of_mem a2m hpre) (by simp [hcon])

theorem nodup_append_singleton {M : Type} {l : List M} {m : M}
    (hnd : l.Nodup) (hm : m ∉ l) : (l ++ [m]).Nodup := by
  rw [List.nodup_append]
  refine ⟨hnd, List.nodup_singleton m, ?_⟩
  intro a hal ham
  rw [List.mem_singleton] at ham
  subst ham
  exact hm hal

theorem ensureJoinF_joined_nodup {M : Type} [DecidableEq M] (a2m : List String → Option M) :
    ∀ (n : Nat) (q : Query M) (m : M) (p : List String) (q' : Query M),
      ensureJoinF a2m n q m p = some q' →
      a2m p = some m → ChainOk a2m p → p ≠ [] →
      q.joinedModels.Nodup → q'.joinedModels.Nodup := by
  intro n
  induction n with
  | zero => intro q m p q' h _ _ _ _; simp [ensureJoinF] at h
  | succ n ih =>
    intro q m p q' h hm hco hp hnd
    rw [ensureJoinF] at h
    by_cases hmem : m ∈ q.joinedModels
    · rw [if_pos hmem] at h
      cases h
      exact hnd
    · rw [if_neg hmem] at h
      by_cases hlen : p.length < 2
      · rw [if_pos hlen] at h
        cases h
        exact nodup_append_singleton hnd hmem
      · rw [if_neg hlen] at h
        cases ha : a2m p.dropLast with
        | none => simp only [ha] at h; exact Option.noConfusion h
        | some nm =>
          simp only [ha] at h
          cases hrec : ensureJoinF a2m n q nm p.dropLast with
          | none => simp only [hrec] at h; exact Option.noConfusion h
          | some q2 =>
            simp only [hrec, Option.some.injEq] at h
            subst h
            have hdl : p.dropLast ≠ [] := by
              intro hcon
              have := congrArg List.length hcon
              simp [List.length_dropLast] at this
              omega
            have hnd2 : q2.joinedModels.Nodup :=
              ih q nm p.dropLast q2 hrec ha (hco.dropLast hp) hdl hnd
            have hm2 : m ∉ q2.joinedModels := by
              intro hin
              rcases ensureJoinF_joined_subset a2m n q nm p.dropLast q2 hrec m hin with
                h1 | h1 | ⟨pre, hpre, hpa⟩
              · exact hmem h1
              · apply ChainOk.not_dup hco hp (self_mem_initSegs _ hdl)
                rw [ha, ← h1, hm]
              · apply ChainOk.not_dup hco hp hpre
                rw [hpa, hm]
            exact nodup_append_singleton hnd2 hm2

theorem dropLast_ne_of_two_le {lk : List String} (hlen : 2 ≤ lk.length) :
    lk.dropLast ≠ [] := by
  intro hcon
  have := congrArg List.length hcon
  simp [List.length_dropLast] at this
  omega

theorem prepareStep_nodup {M : Type} [DecidableEq M] (e : Export M)
    {acc acc' : Query M × List (M × List String)} {lk : List String}
    (hch : 2 ≤ lk.length → ChainOk e.aliasToModel lk.dropLast)
    (hnd : acc.1.joinedModels.Nodup)
    (h : prepareStep e acc lk = some acc') : acc'.1.joinedModels.Nodup := by
  rw [prepareStep] at h
  by_cases hlen : 2 ≤ lk.length
  · rw [if_pos hlen] at h
    cases ha : e.aliasToModel lk.dropLast with
    | none => simp only [ha] at h; exact Option.noConfusion h
    | some model =>
      simp only [ha] at h
      cases hej : ensure_join e.aliasToModel acc.1 model lk.dropLast with
      | none => simp only [hej] at h; exact Option.noConfusion h
      | some clone2 =>
        simp only [hej, Option.some.injEq] at h
        subst h
        exact ensureJoinF_joined_nodup e.aliasToModel (lk.dropLast.length + 1) acc.1 model
          lk.dropLast clone2 hej ha (hch hlen) (dropLast_ne_of_two_le hlen) hnd
  · rw [if_neg hlen] at h
    cases h
    exact hnd

theorem foldl_prepareStep_nodup {M : Type} [DecidableEq M] (e : Export M) :
    ∀ (fields : List (List String)) (acc res : Query M × List (M × List String)),
      (∀ lk ∈ fields, 2 ≤ lk.length → ChainOk e.aliasToModel lk.dropLast) →
      acc.1.joinedModels.Nodup →
      List.foldlM (prepareStep e) acc fields = some res →
      res.1.joinedModels.Nodup := by
  intro fields
  induction fields with
  | nil =>
    intro acc res _ hnd h
    simp only [List.foldlM_nil, Option.pure_def, Option.some.injEq] at h
    subst h
    exact hnd
  | cons lk rest ih =>
    intro acc res hch hnd h
    rw [List.foldlM_cons] at h
    cases hstep : prepareStep e acc lk with
    | none => simp [hstep] at h
    | some acc' =>
      simp only [hstep, Option.bind_eq_bind, Option.some_bind] at h
      exact ih acc' res (fun lk' h' hl => hch lk' (by simp [h']) hl)
        (prepareStep_nodup e (hch lk (by simp)) hnd hstep) h

/-- **C3**: in the query produced by `Export.prepare_query`, each model
appears in the ORM's joined-model tracking at most once (the tracking
list stays duplicate-free), no matter how many selected paths require a
join to that model — `ensure_join` skips any model already present.
The `ChainOk` hypothesis states that the path chains of the selected
delimited lookups resolve and repeat no model, which is the case for
every related-field map a terminating `collect_related_fields` run can
build. -/
theorem export_prepare_query_join_dedup {M : Type} [DecidableEq M] (e : Export M)
    (q' : Query M)
    (hchain : ∀ lk ∈ e.fields, 2 ≤ lk.length → ChainOk e.aliasToModel lk.dropLast)
    (hnd : e.query.joinedModels.Nodup)
    (h : e.prepare_query = some q') :
    q'.joinedModels.Nodup := by
  rw [Export.prepare_query] at h
  cases hf : e.fields.foldlM (prepareStep e) (e.query, []) with
  | none => simp only [hf] at h; exact Option.noConfusion h
  | some res =>
    obtain ⟨clone, select⟩ := res
    simp only [hf, Option.some.injEq] at h
    subst h
    exact foldl_prepareStep_nodup e e.fields (e.query, []) (clone, select) hchain hnd hf

instance {M : Type} [DecidableEq M] (a2m : List String → Option M) (p : List String) :
    Decidable (ChainOk a2m p) :=
  inferInstanceAs (Decidable (_ ∧ _))

/-- The Post/User export of the specification's worked example: root
model `Post` with a relation `user -> User`, selected paths `"name"`
and `"user__email"`. -/
def postUserExport : Export String :=
  { query := { model := "Post", joinedModels := [], ctx := "Post", select := [] },
    relatedKeys := [("User", ["user"])],
    fields := [["name"], ["user", "email"]] }

/-- The query `postUserExport.prepare_query` produces. -/
def postUserPrepared : Query String :=
  { model := "Post", joinedModels := ["User"], ctx := "User",
    select := [("Post", ["name"]), ("User", ["email"])] }

/-- Witness for C3: on the Post/User example the prepared query's
joined-model tracking is `["User"]`, which is duplicate-free. -/
theorem export_prepare_query_join_dedup_witness :
    postUserExport.prepare_query = some postUserPrepared ∧
    postUserPrepared.joinedModels.Nodup :=
  ⟨by decide, export_prepare_query_join_dedup postUserExport postUserPrepared
    (by decide) (by decide) (by decide)⟩

theorem ensureJoinF_joined_append {M : Type} [DecidableEq M] (a2m : List String → Option M) :
    ∀ (n : Nat) (q : Query M) (m : M) (p : List String) (q' : Query M),
      ensureJoinF a2m n q m p = some q' →
      a2m p = some m → p ≠ [] →
      (∀ pre ∈ initSegs p, ∀ x ∈ q.joinedModels, a2m pre ≠ some x) →
      q'.joinedModels = q.joinedModels ++ (initSegs p).filterMap a2m := by
  intro n
  induction n with
  | zero => intro q m p q' h _ _ _; simp [ensureJoinF] at h
  | succ n ih =>
    intro q m p q' h hm hp hfresh
    rw [ensureJoinF] at h
    have hmem : m ∉ q.joinedModels := fun hin =>
      hfresh p (self_mem_initSegs p hp) m hin hm
    rw [if_neg hmem] at h
    by_cases hlen : p.length < 2
    · rw [if_pos hlen] at h
      cases h
      have hdl : p.dropLast = [] := by
        have h1 : p.dropLast.length = 0 := by
          rw [List.length_dropLast]
          cases p with
          | nil => exact absurd rfl hp
          | cons a t =>
            simp only [List.length_cons] at hlen ⊢
            omega
        exact List.eq_nil_of_length_eq_zero h1
      have hone : initSegs p = [p] := by
        rw [initSegs_ne p hp, hdl]
        rfl
      simp [Query.join, Query.switch, hone, List.filterMap_cons, hm]
    · rw [if_neg hlen] at h
      cases ha : a2m p.dropLast with
      | none => simp only [ha] at h; exact Option.noConfusion h
      | some nm =>
        simp only [ha] at h
        cases hrec : ensureJoinF a2m n q nm p.dropLast with
        | none => simp only [hrec] at h; exact Option.noConfusion h
        | some q2 =>
          simp only [hrec, Option.some.injEq] at h
          subst h
          have hdl : p.dropLast ≠ [] := by
            intro hcon
            have := congrArg List.length hcon
            simp [List.length_dropLast] at this
            omega
          have ihq := ih q nm p.dropLast q2 hrec ha hdl
            (fun pre hpre => hfresh pre (initSegs_dropLast_subset p hp pre hpre))
          simp only [Query.join, Query.switch, ihq]
          rw [initSegs_ne p hp, List.filterMap_append]
          simp [List.filterMap_cons, hm, List.append_assoc]

/-- **C4 (amended)**: when `ensure_join` is called for a delimited path
`p` whose terminal model `m` is the one `alias_to_model` assigns to `p`,
and *no model on the path's chain is already joined*, then it joins
exactly the chain of models of the nonempty initial segments of `p`, in
order — ancestors before descendants — so every model named by an
ancestor prefix ends up in the joined-model tracking.  (The proviso is
forced: if some chain model is already joined, `ensure_join` returns at
that point without ensuring the remaining, shallower ancestors — see
the counterexample.) -/
theorem ensure_join_ancestor_chain_amended {M : Type} [DecidableEq M]
    (a2m : List String → Option M) (q : Query M) (m : M) (p : List String) (q' : Query M)
    (h : ensure_join a2m q m p = some q')
    (hm : a2m p = some m) (hp : p ≠ [])
    (hfresh : ∀ pre ∈ initSegs p, ∀ x ∈ q.joinedModels, a2m pre ≠ some x) :
    q'.joinedModels = q.joinedModels ++ (initSegs p).filterMap a2m ∧
    ∀ pre ∈ initSegs p, ∀ x, a2m pre = some x → x ∈ q'.joinedModels := by
  have heq := ensureJoinF_joined_append a2m (p.length + 1) q m p q' h hm hp hfresh
  refine ⟨heq, ?_⟩
  intro pre hpre x hx
  rw [heq]
  exact List.mem_append_right _ (List.mem_filterMap.2 ⟨pre, hpre, hx⟩)

/-- An export on which `prepare_query` skips an ancestor join: root `R`
has relations `x -> B` and `f -> A`, and `A` has `g -> B`; the selected
paths are `"x__name"` and `"f__g__name"`.  Processing `"x__name"` joins
`B`; processing `"f__g__name"` then finds its terminal model `B`
already joined and returns without ever joining the ancestor `A`. -/
def skipAncestorExport : Export String :=
  { query := { model := "R", joinedModels := [], ctx := "R", select := [] },
    relatedKeys := [("B", ["x"]), ("A", ["f"]), ("B", ["f", "g"])],
    fields := [["x", "name"], ["f", "g", "name"]] }

/-- Counterexample for C4 as stated: `"f"` is an ancestor prefix of the
selected path `"f__g__name"` and names model `A`, yet after
`prepare_query` returns, `A` is not in the joined-model set. -/
theorem export_prepare_query_ancestor_joins_counterexample :
    skipAncestorExport.aliasToModel ["f"] = some "A" ∧
    ["f"] ∈ initSegs (["f", "g", "name"] : List String).dropLast ∧
    (["f", "g", "name"] : List String) ∈ skipAncestorExport.fields ∧
    (skipAncestorExport.prepare_query.map fun q' => q'.joinedModels.contains "A") =
      some false :=
  ⟨by decide, by decide, by decide, by decide⟩

def uPa2m : List String → Option String := fun p =>
  if p = ["u"] then some "U" else if p = ["u", "pr"] then some "P" else none

def uPQuery : Query String :=
  { model := "R", joinedModels := [], ctx := "R", select := [] }

def uPResult : Query String :=
  { model := "R", joinedModels := ["U", "P"], ctx := "P", select := [] }

/-- Witness for the amended C4: joining for the fresh path `u__pr`
(chain `U`, then `P`) appends exactly `["U", "P"]` to the joined-model
tracking, ancestors first. -/
theorem ensure_join_ancestor_chain_amended_witness :
    ensure_join uPa2m uPQuery "P" ["u", "pr"] = some uPResult ∧
    uPResult.joinedModels =
      uPQuery.joinedModels ++ (initSegs ["u", "pr"]).filterMap uPa2m :=
  ⟨by decide, (ensure_join_ancestor_chain_amended uPa2m uPQuery "P" ["u", "pr"] uPResult
    (by decide) (by decide) (by decide) (by decide)).1⟩

/-- Look a model up in the association-list select dict. -/
def lookupSel {M : Type} [DecidableEq M] : List (M × List String) → M → Option (List String)
  | [], _ => none
  | (k, cs) :: rest, m => if k = m then some cs else lookupSel rest m

/-- The column (if any) that one selected lookup contributes to model
`m`'s select list, read off the source's `for lookup in self.fields`
loop: a delimited path contributes its final segment to the model its
ancestor path maps to; an undelimited one contributes itself to the
root model. -/
def fieldColSpec {M : Type} [DecidableEq M] (e : Export M) (m : M) (lk : List String) :
    Option String :=
  if 2 ≤ lk.length then
    match e.aliasToModel lk.dropLast with
    | some mm => if mm = m then some (lk.getLastD "") else none
    | none => none
  else if e.query.model = m then some (lk.headD "") else none

/-- All columns the given lookups request for model `m`, in order. -/
def fieldsColsSpec {M : Type} [DecidableEq M] (e : Export M) (fields : List (List String))
    (m : M) : List String :=
  fields.filterMap (fieldColSpec e m)

theorem lookupSel_selAppend {M : Type} [DecidableEq M] :
    ∀ (sel : List (M × List String)) (m : M) (c : String) (m' : M),
      lookupSel (selAppend sel m c) m' =
        if m = m' then
          match lookupSel sel m' with
          | some cs => some (cs ++ [c])
          | none => some [c]
        else lookupSel sel m' := by
  intro sel
  induction sel with
  | nil =>
    intro m c m'
    by_cases h : m = m'
    · subst h
      simp [selAppend, lookupSel]
    · simp [selAppend, lookupSel, h]
  | cons kv rest ih =>
    intro m c m'
    obtain ⟨k, cs⟩ := kv
    by_cases hkm : k = m
    · subst hkm
      simp only [selAppend, if_pos rfl]
      by_cases hk : k = m'
      · subst hk
        simp [lookupSel]
      · simp [lookupSel, hk]
    · simp only [selAppend, if_neg hkm]
      by_cases hk : k = m'
      · subst hk
        have hmk : ¬ (m = k) := fun hcon => hkm hcon.symm
        simp [lookupSel, hmk]
      · simp only [lookupSel, if_neg hk]
        rw [ih]

theorem prepareStep_select {M : Type} [DecidableEq M] (e : Export M)
    {acc acc' : Query M × List (M × List String)} {lk : List String}
    (h : prepareStep e acc lk = some acc') :
    ∃ tm tc, acc'.2 = selAppend acc.2 tm tc ∧
      ∀ m, fieldColSpec e m lk = if tm = m then some tc else none := by
  rw [prepareStep] at h
  by_cases hlen : 2 ≤ lk.length
  · rw [if_pos hlen] at h
    cases ha : e.aliasToModel lk.dropLast with
    | none => simp only [ha] at h; exact Option.noConfusion h
    | some model =>
      simp only [ha] at h
      cases hej : ensure_join e.aliasToModel acc.1 model lk.dropLast with
      | none => simp only [hej] at h; exact Option.noConfusion h
      | some clone2 =>
        simp only [hej, Option.some.injEq] at h
        subst h
        exact ⟨model, lk.getLastD "", rfl, fun m => by simp [fieldColSpec, hlen, ha]⟩
  · rw [if_neg hlen] at h
    cases h
    exact ⟨e.query.model, lk.headD "", rfl, fun m => by simp [fieldColSpec, hlen]⟩

theorem foldl_prepareStep_select {M : Type} [DecidableEq M] (e : Export M) :
    ∀ (fields : List (List String)) (acc res : Query M × List (M × List String)),
      List.foldlM (prepareStep e) acc fields = some res →
      ∀ m, lookupSel res.2 m =
        match lookupSel acc.2 m with
        | some cs => some (cs ++ fieldsColsSpec e fields m)
        | none =>
          if fieldsColsSpec e fields m = [] then none
          else some (fieldsColsSpec e fields m) := by
  intro fields
  induction fields with
  | nil =>
    intro acc res h m
    simp only [List.foldlM_nil, Option.pure_def, Option.some.injEq] at h
    subst h
    cases hl : lookupSel acc.2 m with
    | none => simp [fieldsColsSpec]
    | some cs => simp [fieldsColsSpec]
  | cons lk rest ih =>
    intro acc res h m
    rw [List.foldlM_cons] at h
    cases hstep : prepareStep e acc lk with
    | none => simp [hstep] at h
    | some acc' =>
      simp only [hstep, Option.bind_eq_bind, Option.some_bind] at h
      have ihr := ih acc' res h m
      obtain ⟨tm, tc, hsel, hcol⟩ := prepareStep_select e hstep
      have hspec : fieldsColsSpec e (lk :: rest) m =
          (if tm = m then tc :: fieldsColsSpec e rest m else fieldsColsSpec e rest m) := by
        rw [fieldsColsSpec, List.filterMap_cons, hcol m]
        by_cases htm : tm = m
        · simp [htm, fieldsColsSpec]
        · simp [htm, fieldsColsSpec]
      rw [hsel, lookupSel_selAppend] at ihr
      by_cases htm : tm = m
      · rw [if_pos htm] at ihr
        rw [hspec, if_pos htm]
        cases hl : lookupSel acc.2 m with
        | none => simp only [hl] at ihr; simpa using ihr
        | some cs => simp only [hl] at ihr; simpa [List.append_assoc] using ihr
      · rw [if_neg htm] at ihr
        rw [hspec, if_neg htm]
        exact ihr

/-- **C5**: the query `Export.prepare_query` returns carries, for every
model, exactly the requested columns and nothing else: the select dict
maps a model to precisely the columns the selected lookups contribute to
it (a delimited path `ancestorPath__column` contributes `column` to the
model `ancestorPath` maps to; an undelimited path contributes itself to
the root model), and a model no lookup contributes to has no entry.
The clone's default wildcard selection is overwritten
(`clone.query = select`). -/
theorem export_prepare_query_select_exact {M : Type} [DecidableEq M] (e : Export M)
    (q' : Query M) (h : e.prepare_query = some q') :
    ∀ m, lookupSel q'.select m =
      if fieldsColsSpec e e.fields m = [] then none
      else some (fieldsColsSpec e e.fields m) := by
  intro m
  rw [Export.prepare_query] at h
  cases hf : e.fields.foldlM (prepareStep e) (e.query, []) with
  | none => rw [hf] at h; exact Option.noConfusion h
  | some res =>
    obtain ⟨clone, select⟩ := res
    rw [hf] at h
    simp only [Option.some.injEq] at h
    subst h
    have hfold := foldl_prepareStep_select e e.fields (e.query, []) (clone, select) hf m
    simpa [lookupSel] using hfold

/-- Witness for C5, the specification's worked example: selected paths
`"name"` and `"user__email"` on root `Post` with `user -> User` produce
select lists `Post: [name]`, `User: [email]`, nothing for any other
model, and join `User` exactly once. -/
theorem export_prepare_query_select_exact_witness :
    postUserExport.prepare_query = some postUserPrepared ∧
    lookupSel postUserPrepared.select "Post" = some ["name"] ∧
    lookupSel postUserPrepared.select "User" = some ["email"] ∧
    lookupSel postUserPrepared.select "Tag" = none ∧
    postUserPrepared.joinedModels = ["User"] :=
  ⟨by decide,
   (export_prepare_query_select_exact postUserExport postUserPrepared (by decide)
     "Post").trans (by decide),
   (export_prepare_query_select_exact postUserExport postUserPrepared (by decide)
     "User").trans (by decide),
   (export_prepare_query_select_exact postUserExport postUserPrepared (by decide)
     "Tag").trans (by decide),
   by decide⟩

/-! ## Cascading-delete preview: `ModelAdmin.collect_objects`
(admin.py lines 224-235).

`obj.collect_queries()` (peewee) supplies triples
`(query, fk_field, depth)`; the loop executes each query (after
restricting its selection to `['*']`, which does not affect which rows
come back) and keeps `(depth, query.model, fk_field, collected)` for
the non-empty ones, then sorts by
`key=lambda i: (i[0], i[1].__name__)`.  We model a dependent query by
its model's `__name__` and the rows its execution yields, and Python's
stable `sorted` by Mathlib's stable `insertionSort` over the same total
preorder (two stable sorts under one preorder agree). -/

structure DepQuery (R : Type) where
  modelName : String
  rows : List R
deriving DecidableEq

/-- Lexicographic comparison of character sequences by code point —
how Python compares the `__name__` strings in the sort key. -/
def charListLe : List Char → List Char → Bool
  | [], _ => true
  | _ :: _, [] => false
  | a :: as, b :: bs => if a < b then true else if a = b then charListLe as bs else false

def nameLe (a b : String) : Bool := charListLe a.data b.data

theorem charListLe_total : ∀ a b : List Char, charListLe a b = true ∨ charListLe b a = true
  | [], _ => Or.inl rfl
  | _ :: _, [] => Or.inr rfl
  | a :: as, b :: bs => by
    rcases lt_trichotomy a b with h | h | h
    · left; simp [charListLe, h]
    · subst h
      rcases charListLe_total as bs with h2 | h2
      · left; simp [charListLe, h2]
      · right; simp [charListLe, h2]
    · right; simp [charListLe, h]

theorem charListLe_trans : ∀ a b c : List Char,
    charListLe a b = true → charListLe b c = true → charListLe a c = true
  | [], _, _, _, _ => rfl
  | _ :: _, [], _, h1, _ => by simp [charListLe] at h1
  | _ :: _, _ :: _, [], _, h2 => by simp [charListLe] at h2
  | a :: as, b :: bs, c :: cs, h1, h2 => by
    simp only [charListLe] at h1 h2 ⊢
    by_cases hab : a < b
    · by_cases hbc : b < c
      · simp [lt_trans hab hbc]
      · by_cases hbc2 : b = c
        · subst hbc2; simp [hab]
        · simp [hbc, hbc2] at h2
    · by_cases hab2 : a = b
      · subst hab2
        by_cases hbc : a < c
        · simp [hbc]
        · by_cases hbc2 : a = c
          · subst hbc2
            simp only [lt_irrefl, if_false, if_pos rfl] at h1 h2 ⊢
            exact charListLe_trans as bs cs h1 h2
          · simp [hbc, hbc2] at h2
      · simp [hab, hab2] at h1

/-- The sort key order `(depth, model.__name__)`, lexicographically. -/
def collectLe {R : Type} (a b : Nat × String × String × List R) : Prop :=
  a.1 < b.1 ∨ (a.1 = b.1 ∧ nameLe a.2.1 b.2.1 = true)

instance {R : Type} : DecidableRel (@collectLe R) := fun _ _ =>
  inferInstanceAs (Decidable (_ ∨ _))

instance {R : Type} : IsTotal (Nat × String × String × List R) collectLe where
  total a b := by
    rcases Nat.lt_trichotomy a.1 b.1 with h | h | h
    · exact Or.inl (Or.inl h)
    · rcases charListLe_total a.2.1.data b.2.1.data with h2 | h2
      · exact Or.inl (Or.inr ⟨h, h2⟩)
      · exact Or.inr (Or.inr ⟨h.symm, h2⟩)
    · exact Or.inr (Or.inl h)

instance {R : Type} : IsTrans (Nat × String × String × List R) collectLe where
  trans a b c hab hbc := by
    rcases hab with hab | ⟨hab, hab2⟩
    · rcases hbc with hbc | ⟨hbc, _⟩
      · exact Or.inl (hab.trans hbc)
      · exact Or.inl (hbc ▸ hab)
    · rcases hbc with hbc | ⟨hbc, hbc2⟩
      · exact Or.inl (hab ▸ hbc)
      · exact Or.inr ⟨hab.trans hbc, charListLe_trans _ _ _ hab2 hbc2⟩

/-- `ModelAdmin.collect_objects`: keep the non-empty dependent result
sets as `(depth, model, fk_field, collected)` and sort by depth, then
model name. -/
def collect_objects {R : Type} (input : List (DepQuery R × String × Nat)) :
    List (Nat × String × String × List R) :=
  let objects := input.filterMap (fun x =>
    if x.1.rows.isEmpty then none else some (x.2.2, x.1.modelName, x.2.1, x.1.rows))
  objects.insertionSort collectLe

/-- Dependents found at depths `[2, 1, 1, 0]`, with the two
depth-1 entries carrying model names out of alphabetical order. -/
def depExample : List (DepQuery Nat × String × Nat) :=
  [({ modelName := "Comment", rows := [1] }, "post", 2),
   ({ modelName := "Zeta", rows := [2] }, "r1", 1),
   ({ modelName := "Alpha", rows := [3] }, "r2", 1),
   ({ modelName := "Post", rows := [4] }, "root", 0)]

/-- **C6**: the list `collect_objects` returns is sorted primarily by
depth ascending and secondarily by entity type name ascending within
equal depth; in particular dependents at depths `[2, 1, 1, 0]` come out
depth-ascending with the equal-depth entries ordered by type name. -/
theorem collect_objects_sorted :
    (∀ (R : Type) (input : List (DepQuery R × String × Nat)),
        List.Sorted collectLe (collect_objects input)) ∧
    collect_objects depExample =
      [(0, "Post", "root", [4]), (1, "Alpha", "r2", [3]), (1, "Zeta", "r1", [2]),
        (2, "Comment", "post", [1])] :=
  ⟨fun _ input => List.sorted_insertionSort collectLe _, by decide⟩

/-! ## Route authorization: `Admin.auth_required` (admin.py lines
450-463).

The wrapper consults the auth collaborator
(`self.auth.get_logged_in_user()`, modelled as an `Option U`), builds
the login URL with a return-path (`url_for('...login', next=get_next())`
modelled as `loginUrlFor next`), checks
`self.check_user_permission(user)`, and only then calls the wrapped
handler.  `abort(403)` terminates the request with a forbidden status.
The wrapped handler is a function `func`; the response is an explicit
sum so that "the handler was never invoked" is expressible as the
result being independent of `func`. -/

inductive RouteResponse (α : Type) where
  | redirectTo (url : String)
  | aborted (code : Nat)
  | body (a : α)
deriving DecidableEq

def auth_required {U α : Type} (getLoggedInUser : Option U)
    (check_user_permission : U → Bool) (loginUrlFor : String → String)
    (nextPath : String) (func : Unit → α) : RouteResponse α :=
  match getLoggedInUser with
  | none => .redirectTo (loginUrlFor nextPath)
  | some user =>
    if check_user_permission user then .body (func ())
    else .aborted 403

/-- **C9**: an unauthenticated request is redirected to the login URL
carrying the return-path and the handler is never invoked (the result
does not depend on it); an authenticated request failing the permission
check is terminated with status 403, again without invoking the
handler; only when both checks pass is the handler called and its
result returned. -/
theorem auth_required_gates_handler {U α : Type} (getLoggedInUser : Option U)
    (check_user_permission : U → Bool) (loginUrlFor : String → String)
    (nextPath : String) (func : Unit → α) :
    (getLoggedInUser = none →
      auth_required getLoggedInUser check_user_permission loginUrlFor nextPath func =
        .redirectTo (loginUrlFor nextPath) ∧
      ∀ g : Unit → α,
        auth_required getLoggedInUser check_user_permission loginUrlFor nextPath g =
          auth_required getLoggedInUser check_user_permission loginUrlFor nextPath func) ∧
    (∀ user, getLoggedInUser = some user → check_user_permission user = false →
      auth_required getLoggedInUser check_user_permission loginUrlFor nextPath func =
        .aborted 403 ∧
      ∀ g : Unit → α,
        auth_required getLoggedInUser check_user_permission loginUrlFor nextPath g =
          auth_required getLoggedInUser check_user_permission loginUrlFor nextPath func) ∧
    (∀ user, getLoggedInUser = some user → check_user_permission user = true →
      auth_required getLoggedInUser check_user_permission loginUrlFor nextPath func =
        .body (func ())) := by
  refine ⟨?_, ?_, ?_⟩
  · intro h
    subst h
    exact ⟨rfl, fun g => rfl⟩
  · intro user h hperm
    subst h
    simp [auth_required, hperm]
  · intro user h hperm
    subst h
    simp [auth_required, hperm]

/-- Witness for C9: for a concrete unauthenticated request the wrapper
redirects to `/login/?next=/admin/`, and for a concrete logged-in user
without (resp. with) the admin permission it aborts with 403
(resp. runs the handler). -/
theorem auth_required_gates_handler_witness :
    auth_required (U := Bool) none (fun u => u) (fun n => "/login/?next=" ++ n)
        "/admin/" (fun _ => 7) = .redirectTo "/login/?next=/admin/" ∧
    auth_required (some false) (fun u => u) (fun n => "/login/?next=" ++ n)
        "/admin/" (fun _ => 7) = .aborted 403 ∧
    auth_required (some true) (fun u => u) (fun n => "/login/?next=" ++ n)
        "/admin/" (fun _ => 7) = .body 7 :=
  ⟨((auth_required_gates_handler none (fun u => u) (fun n => "/login/?next=" ++ n)
      "/admin/" (fun _ => 7)).1 rfl).1,
   ((auth_required_gates_handler (some false) (fun u => u)
      (fun n => "/login/?next=" ++ n) "/admin/" (fun _ => 7)).2.1 false rfl rfl).1,
   (auth_required_gates_handler (some true) (fun u => u)
      (fun n => "/login/?next=" ++ n) "/admin/" (fun _ => 7)).2.2 true rfl rfl⟩

/-! ## Typeahead lookup: `ModelAdmin.ajax_list` (admin.py lines
303-333).

`path_to_models(self.model, field)` (an external path resolver) either
returns the chain of related models or raises `AttributeError`; the
`try/except AttributeError` around it is modelled by an
`Except Unit (List M)` argument.  In the success branch the code looks
up the search field, builds and paginates a filtered query and
serializes one page of `(pk, repr)` pairs — all external collaborator
work, modelled by a thunk producing the current page number, the total
page count and the page's rows.  The body is
`json.dumps({'prev_page': .., 'next_page': .., 'object_list': ..})`
(keys in the literal's order) and the response mimetype is
`application/json`. -/

structure AjaxPage where
  currentPage : Nat
  totalPages : Nat
  pageList : List (String × String)

/-- `json.dumps` of the fixed response dict, with each object-list item
already rendered (`dumpItem` models `{'id': .., 'repr': ..}`). -/
def dumpAjax (prevPage nextPage : Nat) (items : List String) : String :=
  "\x7b\"prev_page\": " ++ toString prevPage ++ ", \"next_page\": " ++ toString nextPage ++
    ", \"object_list\": [" ++ String.intercalate ", " items ++ "]\x7d"

def dumpItem (obj : String × String) : String :=
  "\x7b\"id\": " ++ obj.1 ++ ", \"repr\": " ++ obj.2 ++ "\x7d"

/-- `ModelAdmin.ajax_list`, returning `(body, mimetype)`. -/
def ajax_list {M : Type} (resolve : Except Unit (List M)) (page : Unit → AjaxPage) :
    String × String :=
  match resolve with
  | .error _ => (dumpAjax 0 0 [], "application/json")
  | .ok _ =>
    let pg := page ()
    let prevPage := if 1 < pg.currentPage then pg.currentPage - 1 else 0
    let nextPage := if pg.currentPage < pg.totalPages then pg.currentPage + 1 else 0
    (dumpAjax prevPage nextPage (pg.pageList.map dumpItem), "application/json")

/-- **C10**: when resolving the requested field path raises
`AttributeError`, `ajax_list` swallows the error and returns a
well-formed JSON response whose body is
`\x7b"prev_page": 0, "next_page": 0, "object_list": []\x7d`, without
executing any query (the result does not depend on the
query/pagination collaborator). -/
theorem ajax_list_bad_path {M : Type} (resolve : Except Unit (List M))
    (page : Unit → AjaxPage) (h : resolve = .error ()) :
    ajax_list resolve page =
      ("\x7b\"prev_page\": 0, \"next_page\": 0, \"object_list\": []\x7d",
        "application/json") ∧
    ∀ page' : Unit → AjaxPage, ajax_list resolve page' = ajax_list resolve page := by
  subst h
  exact ⟨rfl, fun page' => rfl⟩

/-- Witness for C10 at a concrete failing resolution; the pagination
collaborator would report page 3 of 5 with one row, but is never
consulted. -/
theorem ajax_list_bad_path_witness :
    ajax_list (M := Unit) (.error ())
        (fun _ => { currentPage := 3, totalPages := 5, pageList := [("1", "\"x\"")] }) =
      ("\x7b\"prev_page\": 0, \"next_page\": 0, \"object_list\": []\x7d",
        "application/json") :=
  (ajax_list_bad_path (.error ())
    (fun _ => { currentPage := 3, totalPages := 5, pageList := [("1", "\"x\"")] }) rfl).1

/-! ## Related-field collection: `ModelAdmin.collect_related_fields`
(admin.py lines 267-276).

```
def collect_related_fields(self, model, accum, path):
    path_str = '__'.join(path)
    for field in model._meta.get_fields():
        if isinstance(field, ForeignKeyField):
            self.collect_related_fields(field.to, accum, path + [field.name])
        elif model != self.model:
            accum.setdefault((model, path_str), [])
            accum[(model, path_str)].append(field)
    return accum
```

The relation graph is a function `g` from a model to its field list; a
field is its name plus `some target` when it is a `ForeignKeyField`
(`field.to`) and `none` otherwise.  The accumulator dict keyed by
`(model, path_str)` is an association list.  Python's recursion-depth
limit is made explicit as fuel: `crfVisit` with fuel `0` returns `none`
(RecursionError), and each nested `collect_related_fields` call costs
one unit.  `crfFold` is the `for field in ...` loop, parameterised by
the recursive visitor available to it. -/

structure FieldInfo (M : Type) where
  name : String
  target : Option M
deriving DecidableEq

/-- The accumulator: `(model, path_str)` keys to field lists. -/
abbrev Accum (M : Type) : Type := List ((M × String) × List (FieldInfo M))

def lookupAcc {M : Type} [DecidableEq M] : Accum M → M × String → List (FieldInfo M)
  | [], _ => []
  | (k', fs) :: rest, k => if k' = k then fs else lookupAcc rest k

/-- `accum.setdefault(key, []); accum[key].append(field)`. -/
def appendAcc {M : Type} [DecidableEq M] : Accum M → M × String → FieldInfo M → Accum M
  | [], k, f => [(k, [f])]
  | (k', fs) :: rest, k, f =>
    if k' = k then (k', fs ++ [f]) :: rest else (k', fs) :: appendAcc rest k f

/-- The `for field in model._meta.get_fields()` loop body, with `rec`
the recursive visitor available at one less unit of fuel. -/
def crfFold {M : Type} [DecidableEq M] (root : M)
    (rec : M → Accum M → List String → Option (Accum M)) :
    List (FieldInfo M) → M → Accum M → List String → Option (Accum M)
  | [], _, a, _ => some a
  | f :: fs, m, a, p =>
    match f.target with
    | some t =>
      match rec t a (p ++ [f.name]) with
      | none => none
      | some a2 => crfFold root rec fs m a2 p
    | none =>
      crfFold root rec fs m
        (if m = root then a else appendAcc a (m, String.intercalate "__" p) f) p

/-- One `collect_related_fields` call with the given fuel. -/
def crfVisit {M : Type} [DecidableEq M] (g : M → List (FieldInfo M)) (root : M) :
    Nat → M → Accum M → List String → Option (Accum M)
  | 0, _, _, _ => none
  | n + 1, m, a, p => crfFold root (crfVisit g root n) (g m) m a p

/-- The export view's call
`self.collect_related_fields(self.model, {}, [])`, allowed at most
`fuel` nested call frames. -/
def collect_related_fields {M : Type} [DecidableEq M] (g : M → List (FieldInfo M))
    (root : M) (fuel : Nat) : Option (Accum M) :=
  crfVisit g root fuel root [] []

/-- A self-referential relation graph: model `Node` has a single
foreign key `parent -> Node`. -/
def selfRefGraph : String → List (FieldInfo String) := fun m =>
  if m = "Node" then [{ name := "parent", target := some "Node" }] else []

/-- **C7, evaluated at the failing input**: on the self-referential
graph, `collect_related_fields` exhausts every recursion budget — for
every fuel the model returns `none` (in Python: the recursion never
bottoms out and the interpreter raises `RecursionError`), so the source
does not terminate on cyclic relation graphs as the claim requires. -/
theorem collect_related_fields_unbounded_on_cycle :
    ∀ fuel : Nat, collect_related_fields selfRefGraph "Node" fuel = none := by
  have key : ∀ n (a : Accum String) (p : List String),
      crfVisit selfRefGraph "Node" n "Node" a p = none := by
    intro n
    induction n with
    | zero => intro a p; rfl
    | succ n ih =>
      intro a p
      show crfFold "Node" (crfVisit selfRefGraph "Node" n) (selfRefGraph "Node")
        "Node" a p = none
      rw [show selfRefGraph "Node" = [{ name := "parent", target := some "Node" }] from rfl]
      rw [crfFold]
      simp [ih]
  intro fuel
  cases fuel with
  | zero => rfl
  | succ n => exact key (n + 1) [] []

theorem lookupAcc_appendAcc {M : Type} [DecidableEq M] :
    ∀ (a : Accum M) (k k' : M × String) (f : FieldInfo M),
      lookupAcc (appendAcc a k f) k' =
        if k = k' then lookupAcc a k' ++ [f] else lookupAcc a k' := by
  intro a
  induction a with
  | nil =>
    intro k k' f
    by_cases h : k = k'
    · subst h
      simp [appendAcc, lookupAcc]
    · simp [appendAcc, lookupAcc, h]
  | cons kv rest ih =>
    intro k k' f
    obtain ⟨k0, fs⟩ := kv
    by_cases h0 : k0 = k
    · subst h0
      simp only [appendAcc, if_pos rfl]
      by_cases h1 : k0 = k'
      · subst h1
        simp [lookupAcc]
      · simp [lookupAcc, h1]
    · simp only [appendAcc, if_neg h0]
      by_cases h1 : k0 = k'
      · subst h1
        have hkk : ¬ (k = k0) := fun hc => h0 hc.symm
        simp [lookupAcc, hkk]
      · simp [lookupAcc, h1, ih]

/-- Entrywise containment of accumulators: recursion and the field loop
only ever append, so the accumulator grows monotonically. -/
def SubAcc {M : Type} [DecidableEq M] (a b : Accum M) : Prop :=
  ∀ (k : M × String) (f : FieldInfo M), f ∈ lookupAcc a k → f ∈ lookupAcc b k

theorem SubAcc.rfl {M : Type} [DecidableEq M] {a : Accum M} : SubAcc a a :=
  fun _ _ h => h

theorem SubAcc.trans {M : Type} [DecidableEq M] {a b c : Accum M}
    (h1 : SubAcc a b) (h2 : SubAcc b c) : SubAcc a c :=
  fun k f hf => h2 k f (h1 k f hf)

theorem appendAcc_subAcc {M : Type} [DecidableEq M] (a : Accum M) (k : M × String)
    (f : FieldInfo M) : SubAcc a (appendAcc a k f) := by
  intro k' f' hf
  rw [lookupAcc_appendAcc]
  by_cases h : k = k'
  · rw [if_pos h]
    exact List.mem_append_left _ hf
  · rw [if_neg h]
    exact hf

theorem self_mem_appendAcc {M : Type} [DecidableEq M] (a : Accum M) (k : M × String)
    (f : FieldInfo M) : f ∈ lookupAcc (appendAcc a k f) k := by
  rw [lookupAcc_appendAcc, if_pos rfl]
  exact List.mem_append_right _ (List.mem_singleton_self f)

theorem crfFold_subAcc {M : Type} [DecidableEq M] (root : M)
    (rec : M → Accum M → List String → Option (Accum M))
    (hrec : ∀ t a p a2, rec t a p = some a2 → SubAcc a a2) :
    ∀ (fs : List (FieldInfo M)) (m : M) (a : Accum M) (p : List String) (a2 : Accum M),
      crfFold root rec fs m a p = some a2 → SubAcc a a2 := by
  intro fs
  induction fs with
  | nil =>
    intro m a p a2 h
    rw [crfFold] at h
    cases h
    exact SubAcc.rfl
  | cons f fs ih =>
    intro m a p a2 h
    rw [crfFold] at h
    cases hft : f.target with
    | some t =>
      simp only [hft] at h
      cases hrec1 : rec t a (p ++ [f.name]) with
      | none => simp only [hrec1] at h; exact Option.noConfusion h
      | some aMid =>
        simp only [hrec1] at h
        exact (hrec t a _ aMid hrec1).trans (ih m aMid p a2 h)
    | none =>
      simp only [hft] at h
      by_cases hm : m = root
      · rw [if_pos hm] at h
        exact ih m a p a2 h
      · rw [if_neg hm] at h
        exact (appendAcc_subAcc a _ f).trans (ih m _ p a2 h)

theorem crfVisit_subAcc {M : Type} [DecidableEq M] (g : M → List (FieldInfo M)) (root : M) :
    ∀ (n : Nat) (t : M) (a : Accum M) (p : List String) (a2 : Accum M),
      crfVisit g root n t a p = some a2 → SubAcc a a2 := by
  intro n
  induction n with
  | zero => intro t a p a2 h; exact Option.noConfusion h
  | succ n ih =>
    intro t a p a2 h
    exact crfFold_subAcc root (crfVisit g root n) (fun t a p a2 hh => ih t a p a2 hh)
      (g t) t a p a2 h

/-- No entry keyed by the root model is ever created. -/
def RootClean {M : Type} [DecidableEq M] (root : M) (a : Accum M) : Prop :=
  ∀ ps : String, lookupAcc a (root, ps) = []

theorem crfFold_rootClean {M : Type} [DecidableEq M] (root : M)
    (rec : M → Accum M → List String → Option (Accum M))
    (hrec : ∀ t a p a2, rec t a p = some a2 → RootClean root a → RootClean root a2) :
    ∀ (fs : List (FieldInfo M)) (m : M) (a : Accum M) (p : List String) (a2 : Accum M),
      crfFold root rec fs m a p = some a2 → RootClean root a → RootClean root a2 := by
  intro fs
  induction fs with
  | nil =>
    intro m a p a2 h hc
    rw [crfFold] at h
    cases h
    exact hc
  | cons f fs ih =>
    intro m a p a2 h hc
    rw [crfFold] at h
    cases hft : f.target with
    | some t =>
      simp only [hft] at h
      cases hrec1 : rec t a (p ++ [f.name]) with
      | none => simp only [hrec1] at h; exact Option.noConfusion h
      | some aMid =>
        simp only [hrec1] at h
        exact ih m aMid p a2 h (hrec t a _ aMid hrec1 hc)
    | none =>
      simp only [hft] at h
      by_cases hm : m = root
      · rw [if_pos hm] at h
        exact ih m a p a2 h hc
      · rw [if_neg hm] at h
        apply ih _ _ _ _ h
        intro ps
        rw [lookupAcc_appendAcc]
        rw [if_neg (by intro hc2; exact hm (congrArg Prod.fst hc2))]
        exact hc ps

theorem crfVisit_rootClean {M : Type} [DecidableEq M] (g : M → List (FieldInfo M))
    (root : M) :
    ∀ (n : Nat) (m : M) (a : Accum M) (p : List String) (a2 : Accum M),
      crfVisit g root n m a p = some a2 → RootClean root a → RootClean root a2 := by
  intro n
  induction n with
  | zero => intro m a p a2 h; exact Option.noConfusion h
  | succ n ih =>
    intro m a p a2 h hc
    exact crfFold_rootClean root (crfVisit g root n)
      (fun t a p a2 hh hcc => ih t a p a2 hh hcc) (g m) m a p a2 h hc

theorem crfFold_self {M : Type} [DecidableEq M] (root : M)
    (rec : M → Accum M → List String → Option (Accum M))
    (hrec : ∀ t a p a2, rec t a p = some a2 → SubAcc a a2) :
    ∀ (fs : List (FieldInfo M)) (m : M) (a : Accum M) (p : List String) (a2 : Accum M),
      crfFold root rec fs m a p = some a2 → m ≠ root →
      ∀ f ∈ fs, f.target = none →
        f ∈ lookupAcc a2 (m, String.intercalate "__" p) := by
  intro fs
  induction fs with
  | nil =>
    intro m a p a2 _ _ f hf
    exact absurd hf (List.not_mem_nil f)
  | cons f0 fs ih =>
    intro m a p a2 h hm f hf hft
    rw [crfFold] at h
    rcases List.mem_cons.1 hf with rfl | hf2
    · rw [hft] at h
      rw [if_neg hm] at h
      exact crfFold_subAcc root rec hrec fs m _ p a2 h _ f (self_mem_appendAcc a _ f)
    · cases hft0 : f0.target with
      | some t =>
        simp only [hft0] at h
        cases hrec1 : rec t a (p ++ [f0.name]) with
        | none => simp only [hrec1] at h; exact Option.noConfusion h
        | some aMid =>
          simp only [hrec1] at h
          exact ih m aMid p a2 h hm f hf2 hft
      | none =>
        simp only [hft0] at h
        by_cases hmr : m = root
        · exact absurd hmr hm
        · rw [if_neg hmr] at h
          exact ih m _ p a2 h hm f hf2 hft

theorem crfFold_step {M : Type} [DecidableEq M] (root : M)
    (rec : M → Accum M → List String → Option (Accum M))
    (hrec : ∀ t a p a2, rec t a p = some a2 → SubAcc a a2) :
    ∀ (fs : List (FieldInfo M)) (m : M) (a : Accum M) (p : List String) (aOut : Accum M),
      crfFold root rec fs m a p = some aOut →
      ∀ f ∈ fs, ∀ t, f.target = some t →
        ∃ aMid aMid2, rec t aMid (p ++ [f.name]) = some aMid2 ∧ SubAcc aMid2 aOut := by
  intro fs
  induction fs with
  | nil =>
    intro m a p aOut _ f hf
    exact absurd hf (List.not_mem_nil f)
  | cons f0 fs ih =>
    intro m a p aOut h f hf t hft
    rw [crfFold] at h
    rcases List.mem_cons.1 hf with rfl | hf2
    · rw [hft] at h
      cases hrec1 : rec t a (p ++ [f.name]) with
      | none => simp only [hrec1] at h; exact Option.noConfusion h
      | some aMid2 =>
        simp only [hrec1] at h
        exact ⟨a, aMid2, hrec1, crfFold_subAcc root rec hrec fs m aMid2 p aOut h⟩
    · cases hft0 : f0.target with
      | some t0 =>
        simp only [hft0] at h
        cases hrec1 : rec t0 a (p ++ [f0.name]) with
        | none => simp only [hrec1] at h; exact Option.noConfusion h
        | some aMid =>
          simp only [hrec1] at h
          exact ih m aMid p aOut h f hf2 t hft
      | none =>
        simp only [hft0] at h
        by_cases hmr : m = root
        · rw [if_pos hmr] at h
          exact ih m a p aOut h f hf2 t hft
        · rw [if_neg hmr] at h
          exact ih m _ p aOut h f hf2 t hft

/-- Reachability along foreign-key edges, recording the path of
relation-field names. -/
inductive ReachesFrom {M : Type} (g : M → List (FieldInfo M)) : M → List String → M → Prop where
  | refl (m : M) : ReachesFrom g m [] m
  | step {m t m' : M} {f : FieldInfo M} {q : List String} :
      f ∈ g m → f.target = some t → ReachesFrom g t q m' →
      ReachesFrom g m (f.name :: q) m'

theorem ReachesFrom.comp {M : Type} {g : M → List (FieldInfo M)} {m m' m'' : M}
    {q q' : List String} :
    ReachesFrom g m q m' → ReachesFrom g m' q' m'' → ReachesFrom g m (q ++ q') m''
  | .refl _, h2 => h2
  | .step hf hft hr, h2 => ReachesFrom.step hf hft (ReachesFrom.comp hr h2)

theorem ReachesFrom.pow {M : Type} {g : M → List (FieldInfo M)} {m : M} {q : List String}
    (h : ReachesFrom g m q m) :
    ∀ k : Nat, ∃ qk : List String, qk.length = k * q.length ∧ ReachesFrom g m qk m := by
  intro k
  induction k with
  | zero => exact ⟨[], by simp, ReachesFrom.refl m⟩
  | succ k ih =>
    obtain ⟨qk, hlen, hr⟩ := ih
    exact ⟨q ++ qk, by rw [List.length_append, hlen, Nat.succ_mul]; omega, h.comp hr⟩

/-- Every reach-path explored from a successful call is shorter than the
remaining fuel, and for a nonempty path the reached model's own
`collect_related_fields` call succeeded somewhere inside the run, its
result contained in the final accumulator. -/
theorem crfVisit_reach {M : Type} [DecidableEq M] (g : M → List (FieldInfo M)) (root : M) :
    ∀ (n : Nat) (m : M) (a : Accum M) (p : List String) (aOut : Accum M)
      (q : List String) (m' : M),
      crfVisit g root n m a p = some aOut →
      ReachesFrom g m q m' →
      q.length < n ∧
      (q ≠ [] → ∃ n2 aMid aMid2, n2 < n ∧
        crfVisit g root n2 m' aMid (p ++ q) = some aMid2 ∧ SubAcc aMid2 aOut) := by
  intro n
  induction n with
  | zero => intro m a p aOut q m' h; exact absurd h (by simp [crfVisit])
  | succ n ih =>
    intro m a p aOut q m' h hreach
    cases hreach with
    | refl _ => exact ⟨Nat.succ_pos n, fun hq => absurd rfl hq⟩
    | step hf hft hr =>
      rename_i t f q'
      obtain ⟨aMid, aMid2, hvis, hsub⟩ :=
        crfFold_step root (crfVisit g root n)
          (fun t a p a2 hh => crfVisit_subAcc g root n t a p a2 hh)
          (g m) m a p aOut h f hf t hft
      have hih := ih t aMid (p ++ [f.name]) aMid2 q' m' hvis hr
      refine ⟨by simpa using Nat.succ_lt_succ hih.1, fun _ => ?_⟩
      by_cases hq' : q' = []
      · subst hq'
        cases hr
        exact ⟨n, aMid, aMid2, Nat.lt_succ_self n, by simpa using hvis, hsub⟩
      · obtain ⟨n2, aM3, aM4, hn2, hvis2, hsub2⟩ := hih.2 hq'
        refine ⟨n2, aM3, aM4, Nat.lt_succ_of_lt hn2, ?_, hsub2.trans hsub⟩
        have hpq : p ++ f.name :: q' = p ++ [f.name] ++ q' := by simp
        rw [hpq]
        exact hvis2

/-- **C8**: if `collect_related_fields` on the root model returns (the
recursion bottoms out within the available recursion budget), then
(1) for every model reached from the root over a nonempty path of
relation fields, each of its non-relation fields is in the accumulator
entry keyed by that model and the `'__'`-joined path, and
(2) no entry keyed by the root model exists — in particular the root's
own direct fields (empty path) never appear in the map. -/
theorem collect_related_fields_reached {M : Type} [DecidableEq M]
    (g : M → List (FieldInfo M)) (root : M) (fuel : Nat) (accum : Accum M)
    (hsucc : collect_related_fields g root fuel = some accum) :
    (∀ ps : String, lookupAcc accum (root, ps) = []) ∧
    (∀ (q : List String) (m : M), ReachesFrom g root q m → q ≠ [] →
      ∀ f ∈ g m, f.target = none →
        f ∈ lookupAcc accum (m, String.intercalate "__" q)) := by
  constructor
  · exact crfVisit_rootClean g root fuel root [] [] accum hsucc (fun _ => rfl)
  · intro q m hreach hq f hf hft
    by_cases hm : m = root
    · exfalso
      rw [hm] at hreach
      obtain ⟨qk, hlen, hrk⟩ := hreach.pow fuel
      have hbound := (crfVisit_reach g root fuel root [] [] accum qk root hsucc hrk).1
      rw [hlen] at hbound
      have hq1 : 1 ≤ q.length := by
        cases q with
        | nil => exact absurd rfl hq
        | cons s t => simp
      have : fuel ≤ fuel * q.length := Nat.le_mul_of_pos_right fuel hq1
      omega
    · obtain ⟨n2, aMid, aMid2, _, hvis, hsub⟩ :=
        (crfVisit_reach g root fuel root [] [] accum q m hsucc hreach).2 hq
      cases n2 with
      | zero => exact Option.noConfusion hvis
      | succ n3 =>
        have hself := crfFold_self root (crfVisit g root n3)
          (fun t a p a2 hh => crfVisit_subAcc g root n3 t a p a2 hh)
          (g m) m aMid ([] ++ q) aMid2 hvis hm f hf hft
        have hmem := hsub _ f hself
        simpa using hmem

/-- The relation graph of the worked example: root `Entry` has a plain
field `title` and a foreign key `blog -> Blog`; `Blog` has a plain
field `name`. -/
def entryGraph : String → List (FieldInfo String) := fun m =>
  if m = "Entry" then
    [{ name := "title", target := none }, { name := "blog", target := some "Blog" }]
  else if m = "Blog" then [{ name := "name", target := none }]
  else []

def entryAccum : Accum String := [(("Blog", "blog"), [{ name := "name", target := none }])]

/-- Witness for C8: on the Entry/Blog graph the collection returns;
`Blog.name`, reached via the path `blog`, is filed under
`(Blog, "blog")`, and no entry for the root `Entry` exists. -/
theorem collect_related_fields_reached_witness :
    collect_related_fields entryGraph "Entry" 2 = some entryAccum ∧
    ({ name := "name", target := none } : FieldInfo String) ∈
      lookupAcc entryAccum ("Blog", "blog") ∧
    lookupAcc entryAccum ("Entry", "") = [] := by
  have h := collect_related_fields_reached entryGraph "Entry" 2 entryAccum (by decide)
  refine ⟨by decide, ?_, h.1 ""⟩
  have hr : ReachesFrom entryGraph "Entry" ["blog"] "Blog" :=
    ReachesFrom.step (f := { name := "blog", target := some "Blog" })
      (by decide) rfl (ReachesFrom.refl "Blog")
  have hmem := h.2 ["blog"] "Blog" hr (by decide)
    { name := "name", target := none } (by decide) rfl
  simpa using hmem
